import Mathlib

/-!
Verification of the repository-discovery core of berrymill
(`src/berry_mill/localrepos.py`): a Debian `sources.list` line parser
(`DebianRepofind._parse_repo`), a merge operation on `Repodata`, and the
group-by-URL collector (`DebianRepofind.get_repos`).

Python strings are embedded as `List Char`; Python string methods are
modelled by the `py…` helpers below.  Raised exceptions are modelled by
`Except` / explicit error components.
-/

set_option maxHeartbeats 1000000

/-- A Python string, embedded as its list of characters. -/
abbrev Str : Type := List Char

/-- Python `s.split(sep)` for a one-character separator: splits at every
occurrence, keeping empty segments (`"".split(c) == [""]`). -/
def pySplitChar (sep : Char) : Str → List Str
  | [] => [[]]
  | c :: rest =>
    let r := pySplitChar sep rest
    if c = sep then [] :: r
    else
      match r with
      | [] => [[c]]
      | h :: t => (c :: h) :: t

/-- Leading-whitespace removal (the left half of Python `s.strip()`). -/
def pyDropWs : Str → Str
  | [] => []
  | c :: rest => if c.isWhitespace then pyDropWs rest else c :: rest

/-- Trailing-whitespace removal (the right half of Python `s.strip()`). -/
def pyStripRightWs (s : Str) : Str := (pyDropWs s.reverse).reverse

/-- Python `s.strip()` (no argument): strip whitespace on both ends. -/
def pyStrip (s : Str) : Str := pyStripRightWs (pyDropWs s)

/-- Leading-`ch` removal (left half of Python `s.strip(ch)`). -/
def pyDropChar (ch : Char) : Str → Str
  | [] => []
  | c :: rest => if c = ch then pyDropChar ch rest else c :: rest

/-- Python `s.strip(ch)` for a one-character argument. -/
def pyStripChar (ch : Char) (s : Str) : Str :=
  (pyDropChar ch (pyDropChar ch s).reverse).reverse

/-- Python `s.replace(a, b)` for one-character `a`, `b`. -/
def pyReplaceChar (a b : Char) (s : Str) : Str :=
  s.map (fun c => if c = a then b else c)

/-- Python `s.replace(a, "")` for a one-character `a`. -/
def pyRemoveChar (a : Char) (s : Str) : Str :=
  s.filter (fun c => !(c = a))

/-- Python `s.lower()`. -/
def pyLower (s : Str) : Str := s.map Char.toLower

/-- Python `sep.join(parts)` for a one-character separator. -/
def pyJoinChar (sep : Char) : List Str → Str
  | [] => []
  | [s] => s
  | s :: rest => s ++ sep :: pyJoinChar sep rest

/-- `re.compile("\\s+").sub(" ", s)`: each maximal whitespace run becomes a
single space.  The flag records whether the previous character was
whitespace. -/
def collapseWsAux : Bool → Str → Str
  | _, [] => []
  | prevWs, c :: rest =>
    if c.isWhitespace then
      if prevWs then collapseWsAux true rest
      else ' ' :: collapseWsAux true rest
    else c :: collapseWsAux false rest

/-- `self._attrfix.sub(" ", s)` from the source. -/
def collapseWs (s : Str) : Str := collapseWsAux false s

/-- Whether `"://"` occurs in `s` (Python `"://" in s`). -/
def hasSchemeSep : Str → Bool
  | [] => false
  | ':' :: '/' :: '/' :: _ => true
  | _ :: rest => hasSchemeSep rest

/-- Python `s.split("://")[-1]`: the text after the last (greedy, leftmost
scanning) occurrence of `"://"`, or `s` itself when it never occurs. -/
def afterSchemeSep : Str → Str
  | [] => []
  | ':' :: '/' :: '/' :: rest => afterSchemeSep rest
  | c :: rest => if hasSchemeSep rest then afterSchemeSep rest else c :: rest

/-- Python `s.split("=", 1)` when `"="` occurs: `some (before, after)`;
`none` models the one-element list whose index 1 raises `IndexError`. -/
def splitFirstEq : Str → Option (Str × Str)
  | [] => none
  | c :: rest =>
    if c = '=' then some ([], rest)
    else (splitFirstEq rest).map (fun p => (c :: p.1, p.2))

/-- Python `d[k] = v` on a `dict` embedded as an insertion-ordered
association list: an existing key keeps its position and gets the new
value, a new key is appended. -/
def dictSet (d : List (Str × Str)) (k v : Str) : List (Str × Str) :=
  if d.any (fun p => p.1 = k) then
    d.map (fun p => if p.1 = k then (k, v) else p)
  else d ++ [(k, v)]

/-- Python `d.update(other)`: `dictSet` each pair of `other` in order. -/
def dictUpdate (d other : List (Str × Str)) : List (Str × Str) :=
  other.foldl (fun acc p => dictSet acc p.1 p.2) d

/-- First-seen deduplication: keeps the first occurrence of each element,
skipping anything already in `seen`.  (Used both for Python's
insertion-ordered `dict` keys and, after sorting, for `set`.) -/
def firstSeenAux (seen : List Str) : List Str → List Str
  | [] => []
  | x :: xs =>
    if x ∈ seen then firstSeenAux seen xs
    else x :: firstSeenAux (x :: seen) xs

/-- Strict lexicographic order on embedded strings, matching Python `<`
on `str` (code-point comparison). -/
def strLt : Str → Str → Bool
  | [], [] => false
  | [], _ :: _ => true
  | _ :: _, [] => false
  | a :: as, b :: bs => if a < b then true else if b < a then false else strLt as bs

/-- Insert into a `strLt`-sorted list, keeping it sorted. -/
def insertSorted (x : Str) : List Str → List Str
  | [] => [x]
  | y :: ys => if strLt x y then x :: y :: ys else y :: insertSorted x ys

/-- Sort a list of strings by `strLt` (insertion sort). -/
def sortStrs (l : List Str) : List Str := l.foldr insertSorted []

/-- Python `sorted(set(l))` for a list of strings: the distinct elements
in ascending lexicographic order. -/
def pySortedSet (l : List Str) : List Str := sortStrs (firstSeenAux [] l)

/-! ## The data model: `Repodata` -/

/-- `Repodata` from the source: one repository entry.  `type`, `url`,
`name` are strings, `components` an ordered tuple of strings, `attrs`
the insertion-ordered dict of bracket attributes. -/
structure Repodata where
  type : Str
  components : List Str
  url : Str
  trusted : Bool
  name : Str
  attrs : List (Str × Str)
  is_flat : Bool
deriving DecidableEq, Repr

/-- `Repodata.__init__`: all strings empty, `trusted = False`,
`is_flat = False`, no attrs, no components. -/
def Repodata.init : Repodata :=
  { type := [], components := [], url := [], trusted := false,
    name := [], attrs := [], is_flat := false }

/-- `Repodata.is_valid`: `type`, `url` and `name` are all non-empty. -/
def Repodata.is_valid (r : Repodata) : Bool :=
  !(r.type = []) && !(r.url = []) && !(r.name = [])

/-- `Repodata.merge`, state-passing form: returns the updated accumulator
and, on a URL mismatch, the raised message's URL.  The URL check precedes
every mutation, so on a raise the accumulator comes back untouched. -/
def Repodata.mergeRaw (self repo : Repodata) : Repodata × Option Str :=
  if !(self.url = repo.url) then (self, some repo.url)
  else
    ({ self with
        components := pySortedSet (self.components ++ repo.components),
        trusted := if repo.trusted then self.trusted else false,
        attrs := dictUpdate self.attrs repo.attrs },
     none)

/-- Errors raised by the Python code: `IndexError` from `kw[1]` on an
attribute token without `=`; `Exception("Unknown repository format: ", l)`
from a recognized line with too few tokens; `Exception("Unable to merge u")`
from `Repodata.merge` on a URL mismatch. -/
inductive PyErr where
  | indexError : PyErr
  | unknownFormat : Str → PyErr
  | mergeError : Str → PyErr
deriving DecidableEq, Repr

/-- `Repodata.merge` as an exception-propagating function. -/
def Repodata.merge (self repo : Repodata) : Except PyErr Repodata :=
  match self.mergeRaw repo with
  | (_, some u) => .error (.mergeError u)
  | (r, none) => .ok r

/-! ## The line parser: `DebianRepofind._parse_repo` -/

/-- The recognized dialect marker `"deb "`. -/
def debMarker : Str := ['d', 'e', 'b', ' ']

/-- The fixed `type` tag `"apt-deb"`. -/
def aptDebTag : Str := ['a', 'p', 't', '-', 'd', 'e', 'b']

/-- The attribute loop of `_parse_repo`: for each `key=value` token set
`attrs[key] = value`; a token without `=` raises `IndexError` (`kw[1]`). -/
def parseAttrs (acc : List (Str × Str)) : List Str → Except PyErr (List (Str × Str))
  | [] => .ok acc
  | tok :: rest =>
    match splitFirstEq tok with
    | none => .error .indexError
    | some (k, v) => parseAttrs (dictSet acc k v) rest

/-- The flat-format name derivation from `_parse_repo`:
`"_".join(url.split("://")[-1].split("/")).replace(".", "_").lower().strip("_").replace(":", "")`. -/
def flatName (url : Str) : Str :=
  pyRemoveChar ':'
    (pyStripChar '_'
      (pyLower
        (pyReplaceChar '.' '_'
          (pyJoinChar '_' (pySplitChar '/' (afterSchemeSep url))))))

/-- The second half of `_parse_repo`, from `r.url = repodata.split(" ")[0]`
on: `rd2` is the remainder after the optional bracket block, `attrs` the
attributes collected so far, `line` the original line (`cp_repodata`),
kept only for the exception's payload. -/
def parseTail (line : Str) (attrs : List (Str × Str)) (rd2 : Str) :
    Except PyErr Repodata :=
  let url := (pySplitChar ' ' rd2).headD []
  let rd3 := pyStrip (rd2.drop url.length)
  if rd3 = ['/'] then
    .ok { Repodata.init with
            type := aptDebTag, attrs := attrs, url := url,
            is_flat := true, name := flatName url }
  else
    let nc := pySplitChar ' ' rd3
    if nc.length < 2 then .error (.unknownFormat line)
    else
      .ok { Repodata.init with
              type := aptDebTag, attrs := attrs, url := url,
              name := nc.headD [], components := nc.drop 1 }

/-- `DebianRepofind._parse_repo`.  `line` is the already-stripped input
line fed by `_parse_repofile`. -/
def parseRepo (line : Str) : Except PyErr Repodata :=
  if debMarker.isPrefixOf line then
    let rd1 := pyStrip (line.drop 3)
    if ['['].isPrefixOf rd1 && rd1.contains ']' then
      let content := collapseWs (pyStrip ((pySplitChar ']' (rd1.drop 1)).headD []))
      match parseAttrs [] (pySplitChar ' ' content) with
      | .error e => .error e
      | .ok attrs => parseTail line attrs (pyStrip (((pySplitChar ']' rd1).drop 1).headD []))
    else parseTail line [] rd1
  else .ok Repodata.init

/-! ## The collector: `_parse_repofile` and `get_repos` -/

/-- `DebianRepofind._parse_repofile` on the file's raw lines: strip each
line, blank out comment lines, skip empties, parse the rest, keep only
valid records; a parse exception propagates. -/
def parseRepofile : List Str → Except PyErr (List Repodata)
  | [] => .ok []
  | raw :: rest =>
    let l0 := pyStrip raw
    let l := if ['#'].isPrefixOf l0 then [] else l0
    if l = [] then parseRepofile rest
    else
      match parseRepo l with
      | .error e => .error e
      | .ok r =>
        match parseRepofile rest with
        | .error e => .error e
        | .ok rs => .ok (if r.is_valid then r :: rs else rs)

/-- One step of the `ridx` accumulation in `get_repos`: append `r` to its
URL's list, creating the entry first when absent.  (`ridx.get` is falsy
for a missing key; stored lists are never empty, so key presence is the
whole test.) -/
def ridxAdd (ridx : List (Str × List Repodata)) (r : Repodata) :
    List (Str × List Repodata) :=
  if ridx.any (fun p => p.1 = r.url) then
    ridx.map (fun p => if p.1 = r.url then (p.1, p.2 ++ [r]) else p)
  else ridx ++ [(r.url, [r])]

/-- The inner merge loop of `get_repos`: fold the rest of a URL group
into the first member with `Repodata.merge`. -/
def foldMerge (r : Repodata) : List Repodata → Except PyErr Repodata
  | [] => .ok r
  | x :: xs =>
    match r.merge x with
    | .error e => .error e
    | .ok r2 => foldMerge r2 xs

/-- The flattening loop of `get_repos`: empty groups are skipped,
singleton groups pass through, larger groups are folded with `merge`. -/
def flattenGroups : List (Str × List Repodata) → Except PyErr (List Repodata)
  | [] => .ok []
  | (_, []) :: rest => flattenGroups rest
  | (_, [r]) :: rest =>
    match flattenGroups rest with
    | .error e => .error e
    | .ok l => .ok (r :: l)
  | (_, r :: x :: xs) :: rest =>
    match foldMerge r (x :: xs) with
    | .error e => .error e
    | .ok m =>
      match flattenGroups rest with
      | .error e => .error e
      | .ok l => .ok (m :: l)

/-- The parsing phase of `get_repos`: concatenate the valid records of
every file, in file order. -/
def parseAllFiles : List (List Str) → Except PyErr (List Repodata)
  | [] => .ok []
  | f :: fs =>
    match parseRepofile f with
    | .error e => .error e
    | .ok a =>
      match parseAllFiles fs with
      | .error e => .error e
      | .ok b => .ok (a ++ b)

/-- `DebianRepofind.get_repos`, abstracted over the file contents the
filesystem would supply (`files` is the list of files, each a list of raw
lines): build the URL index in encounter order, then flatten it. -/
def getRepos (files : List (List Str)) : Except PyErr (List Repodata) :=
  match parseAllFiles files with
  | .error e => .error e
  | .ok rs => flattenGroups (rs.foldl ridxAdd [])

/-! ## Specification-side definitions used by the claim statements -/

/-- The total form of the `get_repos` merge fold: the accumulator after
folding `xs` into `r` with `Repodata.mergeRaw` (on a URL mismatch a step
leaves the accumulator unchanged, exactly as the raising code would have
left it). -/
def mergeFoldT (r : Repodata) : List Repodata → Repodata
  | [] => r
  | x :: xs => mergeFoldT (r.mergeRaw x).1 xs

/-- The flat-name derivation as the specification words it: the text
after any `scheme://` prefix, `/` and `.` replaced by `_`, lowercased,
stripped of leading/trailing `_`, with `:` removed. -/
def specFlatName (url : Str) : Str :=
  pyRemoveChar ':'
    (pyStripChar '_'
      (pyLower
        (pyReplaceChar '.' '_'
          (pyReplaceChar '/' '_' (afterSchemeSep url)))))

/-- A bracket attribute block is present (the post-marker remainder
starts with `[` and contains `]`) and some whitespace token of the block
lacks `=` — the `IndexError` condition.  `rd1` is the stripped remainder
after the `deb ` marker. -/
def badAttrTokens (rd1 : Str) : Bool :=
  (['['].isPrefixOf rd1 && rd1.contains ']') &&
    ((pySplitChar ' ' (collapseWs (pyStrip ((pySplitChar ']' (rd1.drop 1)).headD [])))).any
      (fun tok => !(tok.contains '=')))

/-- After removing the URL, the remaining text is not the flat marker `/`
and splits into fewer than 2 space-tokens — the `Unknown repository
format` condition.  `rd2` is the remainder after the optional bracket
block. -/
def fewTokensCond (rd2 : Str) : Bool :=
  let url := (pySplitChar ' ' rd2).headD []
  let rd3 := pyStrip (rd2.drop url.length)
  !(rd3 = ['/']) && ((pySplitChar ' ' rd3).length < 2)

/-- When `parseRepo` raises, per the (amended) specification: the line is
of the recognized dialect and either an attribute token lacks `=`, or too
few tokens follow the URL. -/
def raiseCond (line : Str) : Bool :=
  debMarker.isPrefixOf line &&
    (let rd1 := pyStrip (line.drop 3)
     if ['['].isPrefixOf rd1 && rd1.contains ']' then
       badAttrTokens rd1 || fewTokensCond (pyStrip (((pySplitChar ']' rd1).drop 1).headD []))
     else fewTokensCond rd1)

/-- The distinct URLs of a record list, in first-seen order. -/
def urlsOf (rs : List Repodata) : List Str :=
  firstSeenAux [] (rs.map (fun r => r.url))

/-- The value of the `ridx` index after `get_repos` has inserted all of
`rs`: per distinct URL (first-seen order), the records with that URL in
encounter order. -/
def groupByUrl (rs : List Repodata) : List (Str × List Repodata) :=
  (urlsOf rs).map (fun u => (u, rs.filter (fun r => r.url = u)))

/-- What the flattening loop contributes for one `ridx` entry: nothing
for an empty group, the merge fold for the rest. -/
def groupResult : Str × List Repodata → Option Repodata
  | (_, []) => none
  | (_, r :: xs) => some (mergeFoldT r xs)

/-! ## Concrete fixtures used by witnesses and counterexamples -/

/-- Example record: components `["universe","main"]` at URL `u`. -/
def exCompA : Repodata :=
  { Repodata.init with
      url := ("u").toList,
      components := [("universe").toList, ("main").toList] }

/-- Example record: components `["main","restricted"]` at URL `u`. -/
def exCompB : Repodata :=
  { Repodata.init with
      url := ("u").toList,
      components := [("main").toList, ("restricted").toList] }

/-- Example record: trusted, URL `u`. -/
def exTrue : Repodata :=
  { Repodata.init with url := ("u").toList, trusted := true }

/-- Example record: untrusted, URL `u`. -/
def exFalse : Repodata :=
  { Repodata.init with url := ("u").toList, trusted := false }

/-- Example record: a full valid record with unsorted components. -/
def exFull : Repodata :=
  { Repodata.init with
      type := ("apt-deb").toList,
      url := ("http://u/r").toList,
      name := ("n").toList,
      components := [("universe").toList, ("main").toList],
      attrs := [(("arch").toList, ("amd64").toList)] }

/-- Example input: three files declaring the same URL with different
attributes and components. -/
def exFiles : List (List Str) :=
  [[("deb [a=1] http://u/r n main").toList],
   [("deb [a=2 b=9] http://u/r n universe").toList],
   [("deb [a=3] http://u/r n restricted").toList]]

/-- The records `exFiles` parses to. -/
def exParsed : List Repodata := (parseAllFiles exFiles).toOption.getD []

/-- The records `get_repos` returns for `exFiles`. -/
def exMerged : List Repodata := (getRepos exFiles).toOption.getD []

/-- Example input: two files, each URL declared exactly once. -/
def exFilesOnce : List (List Str) :=
  [[("deb http://a/b n main").toList],
   [("deb http://c/d m universe").toList]]

/-- The records `exFilesOnce` parses to. -/
def exParsedOnce : List Repodata := (parseAllFiles exFilesOnce).toOption.getD []

/-- The records `get_repos` returns for `exFilesOnce`. -/
def exMergedOnce : List Repodata := (getRepos exFilesOnce).toOption.getD []

/-- The record of the first line of `exFilesOnce`. -/
def exSingle : Repodata :=
  { Repodata.init with
      type := ("apt-deb").toList,
      url := ("http://a/b").toList,
      name := ("n").toList,
      components := [("main").toList] }

/-- The record parsed from `deb [a=1] http://u n c` (with or without
trailing junk after a second `]`). -/
def exBracketRec : Repodata :=
  { Repodata.init with
      type := ("apt-deb").toList,
      url := ("http://u").toList,
      name := ("n").toList,
      components := [("c").toList],
      attrs := [(("a").toList, ("1").toList)] }

/-! ## Basic lemmas about the parser -/

deriving instance DecidableEq for Except

theorem pySplitChar_ne_nil (sep : Char) (s : Str) : pySplitChar sep s ≠ [] := by
  induction s with
  | nil => simp [pySplitChar]
  | cons c rest ih =>
    simp only [pySplitChar]
    split
    · simp
    · match h : pySplitChar sep rest with
      | [] => exact absurd h ih
      | a :: t => simp

theorem parseTail_ok_fields {line : Str} {attrs : List (Str × Str)} {rd2 : Str}
    {r : Repodata} (h : parseTail line attrs rd2 = .ok r) :
    r.trusted = false ∧ r.type = aptDebTag ∧ r.attrs = attrs ∧
      r.url = (pySplitChar ' ' rd2).headD [] ∧
      (r.is_flat = true → r.name = flatName r.url) := by
  simp only [parseTail] at h
  split at h
  · cases h
    exact ⟨rfl, rfl, rfl, rfl, fun _ => rfl⟩
  · split at h
    · exact absurd h (by simp)
    · cases h
      refine ⟨rfl, rfl, rfl, rfl, fun hf => ?_⟩
      simp [Repodata.init] at hf

theorem parseRepo_ok_shape {line : Str} {r : Repodata}
    (h : parseRepo line = .ok r) :
    r = Repodata.init ∨
      ∃ attrs rd2, parseTail line attrs rd2 = .ok r := by
  simp only [parseRepo] at h
  split at h
  · split at h
    · split at h
      · exact absurd h (by simp)
      · exact Or.inr ⟨_, _, h⟩
    · exact Or.inr ⟨_, _, h⟩
  · cases h
    exact Or.inl rfl

/-- Claim C1: the parser never sets `trusted`; contrary to the claim's
"true", every record it returns has `trusted = false` (the `__init__`
default), and the merge step can never turn `trusted` back to true. -/
theorem claim_C1 :
    (∀ line r, parseRepo line = .ok r → r.trusted = false) ∧
    (∀ r1 r2 : Repodata, (r1.mergeRaw r2).1.trusted = true → r1.trusted = true) := by
  constructor
  · intro line r h
    rcases parseRepo_ok_shape h with h0 | ⟨attrs, rd2, ht⟩
    · rw [h0]; rfl
    · exact (parseTail_ok_fields ht).1
  · intro r1 r2 h
    unfold Repodata.mergeRaw at h
    split at h
    · exact h
    · simp only at h
      split at h
      · exact h
      · exact absurd h (by simp)

/-- Claim C1, counterexample to the claim as stated: a plain accepted
line yields a record with `trusted = false`, not `true`. -/
theorem claim_C1_cex :
    (parseRepo (("deb http://x/y a b").toList)).map (fun r => r.trusted) =
      Except.ok false := by decide

/-- Claim C1, witness for the amended claim. -/
theorem claim_C1_witness :
    (parseRepo (("deb http://x/y a b").toList)).map (fun r => r.trusted) =
      Except.ok false ∧
    ({ Repodata.init with url := [], trusted := true } : Repodata).trusted = true := by
  constructor
  · have hr : parseRepo (("deb http://x/y a b").toList) =
        Except.ok { type := ("apt-deb").toList, components := [("b").toList],
                    url := ("http://x/y").toList, trusted := false,
                    name := ("a").toList, attrs := [], is_flat := false } := by
      decide
    rw [hr]
    exact congrArg Except.ok (claim_C1.1 _ _ hr)
  · exact claim_C1.2 { Repodata.init with url := [], trusted := true }
      { Repodata.init with url := [], trusted := true } (by decide)

/-! ## Claim C6: merge raises exactly on URL mismatch -/

/-- Claim C6: `merge` raises exactly when the URLs differ; on a raise the
accumulator is untouched (the check precedes every field update); on equal
URLs it never raises and leaves `url`, `type`, `name` and `is_flat` as the
first member's. -/
theorem claim_C6 (r1 r2 : Repodata) :
    ((r1.mergeRaw r2).2.isSome = true ↔ ¬(r1.url = r2.url)) ∧
    (¬(r1.url = r2.url) → (r1.mergeRaw r2).1 = r1 ∧ (∃ e, r1.merge r2 = .error e)) ∧
    (r1.url = r2.url →
      ∃ m, r1.merge r2 = .ok m ∧ m.url = r1.url ∧ m.type = r1.type ∧
        m.name = r1.name ∧ m.is_flat = r1.is_flat) := by
  by_cases h : r1.url = r2.url
  · refine ⟨by simp [Repodata.mergeRaw, h], fun hc => absurd h hc, fun _ => ?_⟩
    refine ⟨(r1.mergeRaw r2).1, ?_, ?_, ?_, ?_, ?_⟩ <;>
      simp [Repodata.merge, Repodata.mergeRaw, h]
  · refine ⟨by simp [Repodata.mergeRaw, h], fun _ => ?_, fun hc => absurd hc h⟩
    exact ⟨by simp [Repodata.mergeRaw, h], ⟨.mergeError r2.url, by simp [Repodata.merge, Repodata.mergeRaw, h]⟩⟩

/-- Claim C6, witness: a mismatched pair leaves the accumulator intact
and raises; a matched pair merges with the first member's identity
fields. -/
theorem claim_C6_witness :
    (¬(({ Repodata.init with url := ("http://a").toList } : Repodata).url =
        ({ Repodata.init with url := ("http://b").toList } : Repodata).url) ∧
      (({ Repodata.init with url := ("http://a").toList } : Repodata).mergeRaw
          { Repodata.init with url := ("http://b").toList }).1 =
        { Repodata.init with url := ("http://a").toList } ∧
      (∃ e, ({ Repodata.init with url := ("http://a").toList } : Repodata).merge
          { Repodata.init with url := ("http://b").toList } = .error e)) ∧
    (∃ m, ({ Repodata.init with url := ("http://a").toList } : Repodata).merge
        { Repodata.init with url := ("http://a").toList } = .ok m ∧
      m.url = ({ Repodata.init with url := ("http://a").toList } : Repodata).url ∧
      m.type = ({ Repodata.init with url := ("http://a").toList } : Repodata).type ∧
      m.name = ({ Repodata.init with url := ("http://a").toList } : Repodata).name ∧
      m.is_flat = ({ Repodata.init with url := ("http://a").toList } : Repodata).is_flat) := by
  constructor
  · have h := (claim_C6 { Repodata.init with url := ("http://a").toList }
      { Repodata.init with url := ("http://b").toList }).2.1 (by decide)
    exact ⟨by decide, h.1, h.2⟩
  · exact (claim_C6 { Repodata.init with url := ("http://a").toList }
      { Repodata.init with url := ("http://a").toList }).2.2 rfl

/-! ## Claim C8: the flat-name derivation -/

theorem pyJoinChar_cons_cons (sep : Char) (a b : Str) (t : List Str) :
    pyJoinChar sep (a :: b :: t) = a ++ sep :: pyJoinChar sep (b :: t) := rfl

theorem join_underscore_split_slash (s : Str) :
    pyJoinChar '_' (pySplitChar '/' s) = pyReplaceChar '/' '_' s := by
  induction s with
  | nil => rfl
  | cons c rest ih =>
    match h : pySplitChar '/' rest with
    | [] => exact absurd h (pySplitChar_ne_nil _ _)
    | a :: t =>
      rw [h] at ih
      by_cases hc : c = '/'
      · subst hc
        have h2 : pySplitChar '/' ('/' :: rest) = [] :: a :: t := by
          simp [pySplitChar, h]
        rw [h2, pyJoinChar_cons_cons, List.nil_append, ih]
        simp [pyReplaceChar]
      · have h2 : pySplitChar '/' (c :: rest) = (c :: a) :: t := by
          simp only [pySplitChar, h, if_neg hc]
        rw [h2]
        cases t with
        | nil =>
          simp only [pyJoinChar] at ih ⊢
          rw [ih]
          simp [pyReplaceChar, hc]
        | cons b t2 =>
          rw [pyJoinChar_cons_cons] at ih ⊢
          rw [List.cons_append, ih]
          simp [pyReplaceChar, hc]

theorem flatName_eq_specFlatName (u : Str) : flatName u = specFlatName u := by
  unfold flatName specFlatName
  rw [join_underscore_split_slash]

/-- Claim C8: for every accepted flat-form line, the record's name is the
deterministic derivation from the URL the specification describes; on
`http://archive.example.com/debian` it equals
`archive_example_com_debian`. -/
theorem claim_C8 :
    (∀ line r, parseRepo line = .ok r → r.is_flat = true →
      r.name = specFlatName r.url) ∧
    specFlatName (("http://archive.example.com/debian").toList) =
      ("archive_example_com_debian").toList := by
  constructor
  · intro line r h hf
    rcases parseRepo_ok_shape h with h0 | ⟨attrs, rd2, ht⟩
    · rw [h0] at hf
      simp [Repodata.init] at hf
    · rw [← flatName_eq_specFlatName]
      exact (parseTail_ok_fields ht).2.2.2.2 hf
  · decide

/-- Claim C8, witness: the flat line for that URL parses to a flat record
whose name is the derived string. -/
theorem claim_C8_witness :
    parseRepo (("deb http://archive.example.com/debian /").toList) =
      Except.ok { type := ("apt-deb").toList, components := [],
                  url := ("http://archive.example.com/debian").toList,
                  trusted := false,
                  name := ("archive_example_com_debian").toList,
                  attrs := [], is_flat := true } ∧
    (("archive_example_com_debian").toList : Str) =
      specFlatName (("http://archive.example.com/debian").toList) := by
  have hr : parseRepo (("deb http://archive.example.com/debian /").toList) =
      Except.ok { type := ("apt-deb").toList, components := [],
                  url := ("http://archive.example.com/debian").toList,
                  trusted := false,
                  name := ("archive_example_com_debian").toList,
                  attrs := [], is_flat := true } := by decide
  exact ⟨hr, claim_C8.1 _ _ hr rfl⟩

/-! ## Claim C2: when the parser raises -/

theorem splitFirstEq_none_iff (s : Str) :
    splitFirstEq s = none ↔ ¬('=' ∈ s) := by
  induction s with
  | nil => simp [splitFirstEq]
  | cons c rest ih =>
    by_cases hc : c = '='
    · subst hc
      simp [splitFirstEq]
    · simp only [splitFirstEq, if_neg hc, Option.map_eq_none', ih, List.mem_cons]
      constructor
      · intro h hm
        rcases hm with hm | hm
        · exact hc hm.symm
        · exact h hm
      · intro h hm
        exact h (Or.inr hm)

theorem parseAttrs_error_iff (toks : List Str) (acc : List (Str × Str)) :
    (∃ e, parseAttrs acc toks = .error e) ↔
      toks.any (fun tok => !(tok.contains '=')) = true := by
  induction toks generalizing acc with
  | nil => simp [parseAttrs]
  | cons tok rest ih =>
    simp only [parseAttrs, List.any_cons]
    rcases hs : splitFirstEq tok with - | ⟨k, v⟩
    · have hm : ¬('=' ∈ tok) := (splitFirstEq_none_iff tok).mp hs
      simp only [Bool.or_eq_true, Bool.not_eq_true']
      constructor
      · intro _
        left
        exact Bool.eq_false_iff.mpr (fun he => hm (List.elem_iff.mp he))
      · intro _
        exact ⟨.indexError, rfl⟩
    · have hm : '=' ∈ tok := by
        by_contra hm
        rw [← splitFirstEq_none_iff] at hm
        rw [hs] at hm
        cases hm
      have hc : tok.contains '=' = true := List.elem_iff.mpr hm
      simp only [hc, Bool.not_true, Bool.false_or]
      exact ih (dictSet acc k v)

theorem parseTail_error_iff (line : Str) (attrs : List (Str × Str)) (rd2 : Str) :
    (∃ e, parseTail line attrs rd2 = .error e) ↔ fewTokensCond rd2 = true := by
  simp only [parseTail, fewTokensCond, List.headD_eq_head?]
  split
  · next hr => simp [hr]
  · next hr =>
    split
    · next hl => simp [hr, hl]
    · next hl => simp [hr, hl]

/-- Claim C2, corrected: `parseRepo` raises exactly when the line starts
with `deb ` and either a bracket attribute block is present with a token
lacking `=` (an `IndexError` the claim does not predict), or — after
removing the URL and any attribute block — the remainder is not `/` and
splits into fewer than 2 tokens. -/
theorem claim_C2 (line : Str) :
    (∃ e, parseRepo line = .error e) ↔ raiseCond line = true := by
  simp only [parseRepo, raiseCond]
  cases hd : debMarker.isPrefixOf line with
  | false => simp
  | true =>
    simp only [Bool.true_and]
    cases hb : (['['].isPrefixOf (pyStrip (line.drop 3)) &&
        (pyStrip (line.drop 3)).contains ']') with
    | false =>
      simp only [Bool.false_eq_true, if_false]
      exact parseTail_error_iff line [] (pyStrip (line.drop 3))
    | true =>
      simp only [eq_self_iff_true, if_true]
      cases hpa : parseAttrs []
          (pySplitChar ' '
            (collapseWs (pyStrip ((pySplitChar ']' ((pyStrip (line.drop 3)).drop 1)).headD []))))
        with
      | error e =>
        dsimp only
        constructor
        · intro _
          rw [Bool.or_eq_true]
          left
          simp only [badAttrTokens, hb, Bool.true_and]
          exact (parseAttrs_error_iff _ []).mp ⟨e, hpa⟩
        · intro _
          exact ⟨e, rfl⟩
      | ok attrs =>
        dsimp only
        have hany : (pySplitChar ' '
            (collapseWs (pyStrip ((pySplitChar ']' ((pyStrip (line.drop 3)).drop 1)).headD [])))).any
              (fun tok => !(tok.contains '=')) = false := by
          rw [← Bool.not_eq_true]
          intro hc
          rcases (parseAttrs_error_iff _ []).mpr hc with ⟨e2, he⟩
          rw [hpa] at he
          cases he
        have hbad : badAttrTokens (pyStrip (line.drop 3)) = false := by
          simp only [badAttrTokens, hb, Bool.true_and]
          exact hany
        rw [hbad, Bool.false_or]
        exact parseTail_error_iff line attrs _

/-- Claim C2, counterexample to the claim as stated: a line with a
bracket token lacking `=` has two tokens after the URL (so the claim
predicts no raise), yet the parser raises an `IndexError`. -/
theorem claim_C2_cex :
    parseRepo (("deb [x] http://u a b").toList) = .error PyErr.indexError ∧
    fewTokensCond (("http://u a b").toList) = false := by decide

/-- Claim C2, witness: the specification's documented fatal case
`deb http://x/y` does raise. -/
theorem claim_C2_witness :
    raiseCond (("deb http://x/y").toList) = true ∧
    (∃ e, parseRepo (("deb http://x/y").toList) = .error e) := by
  refine ⟨by decide, (claim_C2 (("deb http://x/y").toList)).mpr (by decide)⟩

/-! ## The lexicographic order and `sorted(set(...))` -/

theorem strLt_irrefl (s : Str) : strLt s s = false := by
  induction s with
  | nil => rfl
  | cons c rest ih => simp [strLt, lt_irrefl, ih]

theorem strLt_trans : ∀ a b c : Str,
    strLt a b = true → strLt b c = true → strLt a c = true
  | [], [], _, h1, _ => by simp [strLt] at h1
  | [], _ :: _, [], _, h2 => by simp [strLt] at h2
  | [], _ :: _, _ :: _, _, _ => rfl
  | _ :: _, [], _, h1, _ => by simp [strLt] at h1
  | _ :: _, _ :: _, [], _, h2 => by simp [strLt] at h2
  | x :: xs, y :: ys, z :: zs, h1, h2 => by
    simp only [strLt] at h1 h2 ⊢
    by_cases hxy : x < y
    · by_cases hyz : y < z
      · rw [if_pos (lt_trans hxy hyz)]
      · by_cases hzy : z < y
        · rw [if_neg hyz, if_pos hzy] at h2
          cases h2
        · have hyzeq : y = z := le_antisymm (not_lt.mp hzy) (not_lt.mp hyz)
          rw [← hyzeq, if_pos hxy]
    · by_cases hyx : y < x
      · rw [if_neg hxy, if_pos hyx] at h1
        cases h1
      · have hxyeq : x = y := le_antisymm (not_lt.mp hyx) (not_lt.mp hxy)
        subst hxyeq
        rw [if_neg hxy, if_neg hyx] at h1
        by_cases hxz : x < z
        · rw [if_pos hxz]
        · rw [if_neg hxz] at h2 ⊢
          by_cases hzx : z < x
          · rw [if_pos hzx] at h2
            cases h2
          · rw [if_neg hzx] at h2 ⊢
            exact strLt_trans xs ys zs h1 h2

theorem strLt_connex : ∀ a b : Str,
    strLt a b = false → strLt b a = false → a = b
  | [], [], _, _ => rfl
  | [], _ :: _, h1, _ => by simp [strLt] at h1
  | _ :: _, [], _, h2 => by simp [strLt] at h2
  | x :: xs, y :: ys, h1, h2 => by
    simp only [strLt] at h1 h2
    by_cases hxy : x < y
    · rw [if_pos hxy] at h1
      cases h1
    · by_cases hyx : y < x
      · rw [if_pos hyx] at h2
        cases h2
      · have hxyeq : x = y := le_antisymm (not_lt.mp hyx) (not_lt.mp hxy)
        subst hxyeq
        rw [if_neg hxy, if_neg hyx] at h1
        rw [if_neg hyx, if_neg hxy] at h2
        exact congrArg (x :: ·) (strLt_connex xs ys h1 h2)

theorem mem_insertSorted (x : Str) : ∀ (l : List Str) (y : Str),
    y ∈ insertSorted x l ↔ y = x ∨ y ∈ l
  | [], y => by simp [insertSorted]
  | z :: zs, y => by
    simp only [insertSorted]
    split
    · simp only [List.mem_cons]
    · simp only [List.mem_cons, mem_insertSorted x zs y]
      tauto

theorem pairwise_insertSorted (x : Str) : ∀ l : List Str,
    l.Pairwise (fun a b => strLt a b = true) →
    (∀ z ∈ l, z ≠ x) →
    (insertSorted x l).Pairwise (fun a b => strLt a b = true)
  | [], _, _ => by simp [insertSorted]
  | y :: ys, hp, hne => by
    simp only [insertSorted]
    rcases List.pairwise_cons.mp hp with ⟨hy, hys⟩
    split
    · next hxy =>
      refine List.pairwise_cons.mpr ⟨?_, hp⟩
      intro z hz
      rcases List.mem_cons.mp hz with hz | hz
      · rw [hz]
        exact hxy
      · exact strLt_trans x y z hxy (hy z hz)
    · next hxy =>
      have hxy2 : strLt x y = false := Bool.eq_false_iff.mpr hxy
      have hyx : strLt y x = true := by
        cases hb : strLt y x with
        | true => rfl
        | false =>
          exact absurd (strLt_connex x y hxy2 hb).symm
            (hne y (List.mem_cons_self y ys))
      refine List.pairwise_cons.mpr ⟨?_, ?_⟩
      · intro z hz
        rcases (mem_insertSorted x ys z).mp hz with hz | hz
        · rw [hz]
          exact hyx
        · exact hy z hz
      · exact pairwise_insertSorted x ys hys
          (fun z hz => hne z (List.mem_cons_of_mem y hz))

theorem mem_sortStrs (l : List Str) (y : Str) : y ∈ sortStrs l ↔ y ∈ l := by
  induction l with
  | nil => simp [sortStrs]
  | cons x xs ih =>
    show y ∈ insertSorted x (sortStrs xs) ↔ _
    rw [mem_insertSorted, ih]
    simp [List.mem_cons]

theorem pairwise_sortStrs (l : List Str) (h : l.Nodup) :
    (sortStrs l).Pairwise (fun a b => strLt a b = true) := by
  induction l with
  | nil => simp [sortStrs]
  | cons x xs ih =>
    rcases List.nodup_cons.mp h with ⟨hx, hxs⟩
    show (insertSorted x (sortStrs xs)).Pairwise _
    refine pairwise_insertSorted x (sortStrs xs) (ih hxs) ?_
    intro z hz heq
    rw [heq] at hz
    exact hx ((mem_sortStrs xs x).mp hz)

theorem mem_firstSeenAux : ∀ (seen l : List Str) (x : Str),
    x ∈ firstSeenAux seen l ↔ x ∈ l ∧ ¬(x ∈ seen)
  | seen, [], x => by simp [firstSeenAux]
  | seen, y :: ys, x => by
    simp only [firstSeenAux]
    split
    · next hy =>
      rw [mem_firstSeenAux seen ys x]
      simp only [List.mem_cons]
      constructor
      · exact fun ⟨h1, h2⟩ => ⟨Or.inr h1, h2⟩
      · rintro ⟨h1 | h1, h2⟩
        · rw [h1] at h2
          exact absurd hy h2
        · exact ⟨h1, h2⟩
    · next hy =>
      simp only [List.mem_cons, mem_firstSeenAux (y :: seen) ys x, List.mem_cons]
      constructor
      · rintro (h | ⟨h1, h2⟩)
        · rw [h]
          exact ⟨Or.inl rfl, hy⟩
        · exact ⟨Or.inr h1, fun hc => h2 (Or.inr hc)⟩
      · rintro ⟨h1 | h1, h2⟩
        · exact Or.inl h1
        · by_cases hxy : x = y
          · exact Or.inl hxy
          · exact Or.inr ⟨h1, fun hc => (hxy (by rcases hc with hc | hc; exact hc; exact absurd hc h2)).elim⟩

theorem nodup_firstSeenAux : ∀ (seen l : List Str), (firstSeenAux seen l).Nodup
  | seen, [] => by simp [firstSeenAux]
  | seen, y :: ys => by
    simp only [firstSeenAux]
    split
    · exact nodup_firstSeenAux seen ys
    · refine List.nodup_cons.mpr ⟨?_, nodup_firstSeenAux (y :: seen) ys⟩
      intro hc
      exact ((mem_firstSeenAux (y :: seen) ys y).mp hc).2 (List.mem_cons_self y seen)

theorem mem_pySortedSet (l : List Str) (y : Str) : y ∈ pySortedSet l ↔ y ∈ l := by
  unfold pySortedSet
  rw [mem_sortStrs, mem_firstSeenAux]
  simp

theorem pairwise_pySortedSet (l : List Str) :
    (pySortedSet l).Pairwise (fun a b => strLt a b = true) :=
  pairwise_sortStrs _ (nodup_firstSeenAux [] l)

theorem nodup_pySortedSet (l : List Str) : (pySortedSet l).Nodup := by
  refine (pairwise_pySortedSet l).imp ?_
  intro a b hab heq
  rw [heq] at hab
  rw [strLt_irrefl] at hab
  cases hab

theorem sorted_strLt_ext : ∀ l1 l2 : List Str,
    l1.Pairwise (fun a b => strLt a b = true) →
    l2.Pairwise (fun a b => strLt a b = true) →
    (∀ x, x ∈ l1 ↔ x ∈ l2) → l1 = l2
  | [], [], _, _, _ => rfl
  | [], y :: ys, _, _, hm => by
    have := (hm y).mpr (List.mem_cons_self y ys)
    cases this
  | x :: xs, [], _, _, hm => by
    have := (hm x).mp (List.mem_cons_self x xs)
    cases this
  | x :: xs, y :: ys, h1, h2, hm => by
    rcases List.pairwise_cons.mp h1 with ⟨hx, hxs⟩
    rcases List.pairwise_cons.mp h2 with ⟨hy, hys⟩
    have hxy : x = y := by
      rcases List.mem_cons.mp ((hm x).mp (List.mem_cons_self x xs)) with h | h
      · exact h
      · rcases List.mem_cons.mp ((hm y).mpr (List.mem_cons_self y ys)) with h3 | h3
        · exact h3.symm
        · have hcy : strLt y x = true := hy x h
          have hcx : strLt x y = true := hx y h3
          have : strLt x x = true := strLt_trans x y x hcx hcy
          rw [strLt_irrefl] at this
          cases this
    subst hxy
    refine congrArg (x :: ·) (sorted_strLt_ext xs ys hxs hys ?_)
    intro z
    constructor
    · intro hz
      rcases List.mem_cons.mp ((hm z).mp (List.mem_cons_of_mem x hz)) with h | h
      · rw [h] at hz
        have := hx x hz
        rw [strLt_irrefl] at this
        cases this
      · exact h
    · intro hz
      rcases List.mem_cons.mp ((hm z).mpr (List.mem_cons_of_mem x hz)) with h | h
      · rw [h] at hz
        have := hy x hz
        rw [strLt_irrefl] at this
        cases this
      · exact h

theorem pySortedSet_ext (l1 l2 : List Str) (h : ∀ x, x ∈ l1 ↔ x ∈ l2) :
    pySortedSet l1 = pySortedSet l2 := by
  refine sorted_strLt_ext _ _ (pairwise_pySortedSet l1) (pairwise_pySortedSet l2) ?_
  intro x
  rw [mem_pySortedSet, mem_pySortedSet]
  exact h x

/-! ## Claim C4: component union is sorted and set-like -/

/-- Claim C4: merging two records with the same URL yields components
that are strictly sorted, duplicate-free, and contain exactly the union
of both components lists. -/
theorem claim_C4 (r1 r2 : Repodata) (h : r1.url = r2.url) :
    ∃ m, r1.merge r2 = .ok m ∧
      m.components.Pairwise (fun a b => strLt a b = true) ∧
      m.components.Nodup ∧
      (∀ x, x ∈ m.components ↔ x ∈ r1.components ∨ x ∈ r2.components) := by
  refine ⟨(r1.mergeRaw r2).1, ?_, ?_⟩
  · simp [Repodata.merge, Repodata.mergeRaw, h]
  · have hc : (r1.mergeRaw r2).1.components =
        pySortedSet (r1.components ++ r2.components) := by
      simp [Repodata.mergeRaw, h]
    rw [hc]
    refine ⟨pairwise_pySortedSet _, nodup_pySortedSet _, ?_⟩
    intro x
    rw [mem_pySortedSet, List.mem_append]

/-- Claim C4, witness: the specification's example — components
`["universe","main"]` merged with `["main","restricted"]` give
`["main","restricted","universe"]`. -/
theorem claim_C4_witness :
    exCompA.url = exCompB.url ∧
    (∃ m, exCompA.merge exCompB = .ok m ∧
      m.components.Pairwise (fun a b => strLt a b = true) ∧
      m.components.Nodup ∧
      (∀ x, x ∈ m.components ↔ x ∈ exCompA.components ∨ x ∈ exCompB.components)) ∧
    (exCompA.merge exCompB).map (fun m => m.components) =
      .ok [("main").toList, ("restricted").toList, ("universe").toList] :=
  ⟨rfl, claim_C4 exCompA exCompB rfl, by decide⟩

/-! ## Claim C5: the trust fold is an AND, independent of order -/

theorem mergeRaw_fst_url (r x : Repodata) : (r.mergeRaw x).1.url = r.url := by
  unfold Repodata.mergeRaw
  split <;> rfl

theorem mergeRaw_fst_trusted (r x : Repodata) (h : x.url = r.url) :
    (r.mergeRaw x).1.trusted = (r.trusted && x.trusted) := by
  unfold Repodata.mergeRaw
  rw [if_neg (by simp [h])]
  cases hx : x.trusted
  · simp
  · simp

theorem foldMerge_eq_mergeFoldT (xs : List Repodata) :
    ∀ r : Repodata, (∀ x ∈ xs, x.url = r.url) →
      foldMerge r xs = .ok (mergeFoldT r xs) := by
  induction xs with
  | nil => intro r _; rfl
  | cons x xs ih =>
    intro r h
    have hx : x.url = r.url := h x (List.mem_cons_self x xs)
    simp only [foldMerge, mergeFoldT]
    have hok : r.merge x = .ok (r.mergeRaw x).1 := by
      simp [Repodata.merge, Repodata.mergeRaw, hx.symm]
    rw [hok]
    exact ih (r.mergeRaw x).1
      (fun y hy => by rw [mergeRaw_fst_url]; exact h y (List.mem_cons_of_mem x hy))

theorem mergeFoldT_trusted (xs : List Repodata) :
    ∀ r : Repodata, (∀ x ∈ xs, x.url = r.url) →
      (mergeFoldT r xs).trusted = (r.trusted && xs.all (fun x => x.trusted)) := by
  induction xs with
  | nil => intro r _; simp [mergeFoldT]
  | cons x xs ih =>
    intro r h
    have hx : x.url = r.url := h x (List.mem_cons_self x xs)
    simp only [mergeFoldT, List.all_cons]
    rw [ih (r.mergeRaw x).1
      (fun y hy => by rw [mergeRaw_fst_url]; exact h y (List.mem_cons_of_mem x hy))]
    rw [mergeRaw_fst_trusted r x hx, Bool.and_assoc]

theorem perm_all_trusted {l1 l2 : List Repodata} (h : l1.Perm l2) :
    l1.all (fun x => x.trusted) = l2.all (fun x => x.trusted) := by
  induction h with
  | nil => rfl
  | cons x _ ih => simp [List.all_cons, ih]
  | swap x y l => simp [List.all_cons, Bool.and_left_comm]
  | trans _ _ ih1 ih2 => rw [ih1, ih2]

/-- Claim C5: folding same-URL records with `merge` never raises, the
resulting `trusted` is the AND of all members' flags, and it is invariant
under permuting the folded list. -/
theorem claim_C5 (r : Repodata) (xs : List Repodata)
    (h : ∀ x ∈ xs, x.url = r.url) :
    foldMerge r xs = .ok (mergeFoldT r xs) ∧
    (mergeFoldT r xs).trusted = (r.trusted && xs.all (fun x => x.trusted)) ∧
    (∀ ys, ys.Perm xs → (mergeFoldT r ys).trusted = (mergeFoldT r xs).trusted) := by
  refine ⟨foldMerge_eq_mergeFoldT xs r h, mergeFoldT_trusted xs r h, ?_⟩
  intro ys hperm
  rw [mergeFoldT_trusted xs r h,
      mergeFoldT_trusted ys r (fun y hy => h y (hperm.mem_iff.mp hy)),
      perm_all_trusted hperm]

/-- Claim C5, witness: folding an untrusted member forces the result
untrusted. -/
theorem claim_C5_witness :
    (∀ x ∈ [exTrue, exFalse], x.url = exTrue.url) ∧
    (mergeFoldT exTrue [exTrue, exFalse]).trusted =
      (exTrue.trusted && [exTrue, exFalse].all (fun x => x.trusted)) ∧
    (mergeFoldT exTrue [exTrue, exFalse]).trusted = false :=
  ⟨by decide, (claim_C5 exTrue [exTrue, exFalse] (by decide)).2.1, by decide⟩

/-! ## Claim C7: merging a record with itself -/

theorem dictSet_self {d : List (Str × Str)} {k v : Str}
    (hn : (d.map Prod.fst).Nodup) (hm : (k, v) ∈ d) : dictSet d k v = d := by
  unfold dictSet
  rw [if_pos (List.any_eq_true.mpr ⟨(k, v), hm, by simp⟩)]
  have hfix : ∀ p ∈ d, (if p.1 = k then ((k, v) : Str × Str) else p) = p := by
    intro p hp
    by_cases hpk : p.1 = k
    · rw [if_pos hpk]
      exact List.inj_on_of_nodup_map hn hm hp (by simp [hpk])
    · rw [if_neg hpk]
  have h2 : d.map (fun p => if p.1 = k then ((k, v) : Str × Str) else p) = d.map id :=
    List.map_congr_left hfix
  rw [h2, List.map_id]

theorem dictUpdate_sub_self : ∀ (e d : List (Str × Str)),
    (d.map Prod.fst).Nodup → (∀ p ∈ e, p ∈ d) →
    List.foldl (fun acc p => dictSet acc p.1 p.2) d e = d := by
  intro e
  induction e with
  | nil => intro d _ _; rfl
  | cons p e ih =>
    intro d hn hmem
    simp only [List.foldl_cons]
    have hp : p ∈ d := hmem p (List.mem_cons_self p e)
    have hset : dictSet d p.1 p.2 = d := by
      refine dictSet_self hn ?_
      rw [Prod.mk.eta]
      exact hp
    rw [hset]
    exact ih d hn (fun q hq => hmem q (List.mem_cons_of_mem p hq))

theorem dictUpdate_self {d : List (Str × Str)} (hn : (d.map Prod.fst).Nodup) :
    dictUpdate d d = d :=
  dictUpdate_sub_self d d hn (fun _ hp => hp)

/-- Claim C7, corrected: merging a record (with duplicate-free attribute
keys, as a Python dict guarantees) with itself leaves every field intact
except `components`, which becomes the *sorted* deduplication of the
original — not merely the deduplication the claim states. -/
theorem claim_C7 (r : Repodata) (hn : (r.attrs.map Prod.fst).Nodup) :
    r.merge r = .ok { r with components := pySortedSet r.components } := by
  have hcomp : pySortedSet (r.components ++ r.components) = pySortedSet r.components :=
    pySortedSet_ext _ _ (by intro x; simp [List.mem_append])
  have htr : (if r.trusted then r.trusted else false) = r.trusted := by
    cases r.trusted <;> rfl
  simp [Repodata.merge, Repodata.mergeRaw, hcomp, htr, dictUpdate_self hn]

/-- Claim C7, counterexample to the claim as stated: a record whose
components `["universe","main"]` are already duplicate-free still comes
back changed — merge reorders them to `["main","universe"]`. -/
theorem claim_C7_cex :
    (exFull.merge exFull).map (fun m => m.components) =
      .ok [("main").toList, ("universe").toList] ∧
    exFull.components = [("universe").toList, ("main").toList] ∧
    exFull.components.Nodup ∧
    ¬([("main").toList, ("universe").toList] = exFull.components) := by decide

/-- Claim C7, witness for the amended claim. -/
theorem claim_C7_witness :
    (exFull.attrs.map Prod.fst).Nodup ∧
    exFull.merge exFull = .ok { exFull with components := pySortedSet exFull.components } :=
  ⟨by decide, claim_C7 exFull (by decide)⟩

/-! ## Grouping by URL: lemmas about `ridx` -/

theorem firstSeenAux_append_single : ∀ (l : List Str) (seen : List Str) (x : Str),
    firstSeenAux seen (l ++ [x]) =
      firstSeenAux seen l ++ (if x ∈ seen ∨ x ∈ l then [] else [x]) := by
  intro l
  induction l with
  | nil =>
    intro seen x
    by_cases hx : x ∈ seen
    · simp [firstSeenAux, hx]
    · simp [firstSeenAux, hx]
  | cons y ys ih =>
    intro seen x
    simp only [List.cons_append, firstSeenAux, List.append_eq]
    by_cases hy : y ∈ seen
    · rw [if_pos hy, if_pos hy, ih seen x]
      congr 1
      refine if_congr ?_ rfl rfl
      simp only [List.mem_cons]
      constructor
      · rintro (h | h)
        · exact Or.inl h
        · exact Or.inr (Or.inr h)
      · rintro (h | h | h)
        · exact Or.inl h
        · exact Or.inl (h ▸ hy)
        · exact Or.inr h
    · rw [if_neg hy, if_neg hy, ih (y :: seen) x, List.cons_append]
      congr 1
      congr 1
      refine if_congr ?_ rfl rfl
      simp only [List.mem_cons]
      tauto

theorem mem_urlsOf (rs : List Repodata) (u : Str) :
    u ∈ urlsOf rs ↔ u ∈ rs.map (fun r => r.url) := by
  unfold urlsOf
  rw [mem_firstSeenAux]
  simp

theorem urlsOf_append_single (rs : List Repodata) (r : Repodata) :
    urlsOf (rs ++ [r]) =
      urlsOf rs ++ (if r.url ∈ rs.map (fun x => x.url) then [] else [r.url]) := by
  unfold urlsOf
  rw [List.map_append, List.map_cons, List.map_nil, firstSeenAux_append_single]
  congr 1
  refine if_congr ?_ rfl rfl
  simp

theorem filter_url_mem {rs : List Repodata} {u : Str} {x : Repodata}
    (h : x ∈ rs.filter (fun y => y.url = u)) : x.url = u := by
  have := (List.mem_filter.mp h).2
  exact of_decide_eq_true this

theorem filter_url_append_single (rs : List Repodata) (r : Repodata) (u : Str) :
    (rs ++ [r]).filter (fun x => x.url = u) =
      rs.filter (fun x => x.url = u) ++ (if r.url = u then [r] else []) := by
  rw [List.filter_append]
  congr 1
  simp only [List.filter_cons, List.filter_nil]
  by_cases h : r.url = u
  · simp [h]
  · simp [h]

theorem filter_url_eq_nil {rs : List Repodata} {u : Str}
    (h : ¬(u ∈ rs.map (fun x => x.url))) :
    rs.filter (fun x => x.url = u) = [] := by
  refine List.filter_eq_nil_iff.mpr ?_
  intro x hx hc
  exact h (List.mem_map.mpr ⟨x, hx, of_decide_eq_true hc⟩)

theorem mergeFoldT_url (xs : List Repodata) :
    ∀ r : Repodata, (mergeFoldT r xs).url = r.url := by
  induction xs with
  | nil => intro r; rfl
  | cons x xs ih =>
    intro r
    simp only [mergeFoldT]
    rw [ih, mergeRaw_fst_url]

theorem mergeRaw_fst_attrs (r x : Repodata) (h : x.url = r.url) :
    (r.mergeRaw x).1.attrs = dictUpdate r.attrs x.attrs := by
  unfold Repodata.mergeRaw
  rw [if_neg (by simp [h])]

theorem mergeFoldT_attrs (xs : List Repodata) :
    ∀ r : Repodata, (∀ x ∈ xs, x.url = r.url) →
      (mergeFoldT r xs).attrs =
        List.foldl (fun a x => dictUpdate a x.attrs) r.attrs xs := by
  induction xs with
  | nil => intro r _; rfl
  | cons x xs ih =>
    intro r h
    have hx : x.url = r.url := h x (List.mem_cons_self x xs)
    simp only [mergeFoldT, List.foldl_cons]
    rw [ih (r.mergeRaw x).1
      (fun y hy => by rw [mergeRaw_fst_url]; exact h y (List.mem_cons_of_mem x hy))]
    rw [mergeRaw_fst_attrs r x hx]

/-! ## Claim C3 / C9: the collector groups by URL -/

theorem ridxAdd_groupByUrl (rs : List Repodata) (r : Repodata) :
    ridxAdd (groupByUrl rs) r = groupByUrl (rs ++ [r]) := by
  by_cases hmem : r.url ∈ rs.map (fun x => x.url)
  · have hcond : (groupByUrl rs).any (fun p => p.1 = r.url) = true := by
      refine List.any_eq_true.mpr ?_
      refine ⟨(r.url, rs.filter (fun x => x.url = r.url)), ?_, by simp⟩
      exact List.mem_map.mpr ⟨r.url, (mem_urlsOf rs r.url).mpr hmem, rfl⟩
    unfold ridxAdd
    rw [if_pos hcond]
    unfold groupByUrl
    rw [urlsOf_append_single, if_pos hmem, List.append_nil, List.map_map]
    refine List.map_congr_left ?_
    intro u hu
    dsimp only [Function.comp]
    rw [filter_url_append_single]
    by_cases huq : u = r.url
    · rw [if_pos huq, if_pos (huq ▸ rfl)]
    · rw [if_neg huq, if_neg (fun hc => huq hc.symm), List.append_nil]
  · have hcond : ¬((groupByUrl rs).any (fun p => p.1 = r.url) = true) := by
      intro hc
      rcases List.any_eq_true.mp hc with ⟨p, hp, hpe⟩
      rcases List.mem_map.mp hp with ⟨u, hu, rfl⟩
      have huq : u = r.url := of_decide_eq_true hpe
      rw [huq] at hu
      exact hmem ((mem_urlsOf rs r.url).mp hu)
    unfold ridxAdd
    rw [if_neg hcond]
    unfold groupByUrl
    rw [urlsOf_append_single, if_neg hmem, List.map_append, List.map_cons, List.map_nil]
    congr 1
    · refine List.map_congr_left ?_
      intro u hu
      rw [filter_url_append_single]
      have huq : ¬(r.url = u) := by
        intro hc
        rw [hc] at hmem
        exact hmem ((mem_urlsOf rs u).mp hu)
      rw [if_neg huq, List.append_nil]
    · rw [filter_url_append_single, if_pos rfl, filter_url_eq_nil hmem, List.nil_append]

theorem foldl_ridxAdd (rs : List Repodata) :
    ∀ prior, List.foldl ridxAdd (groupByUrl prior) rs = groupByUrl (prior ++ rs) := by
  induction rs with
  | nil => intro prior; rw [List.foldl_nil, List.append_nil]
  | cons r rs ih =>
    intro prior
    rw [List.foldl_cons, ridxAdd_groupByUrl, ih (prior ++ [r]), List.append_assoc,
        List.singleton_append]

theorem foldl_ridxAdd_nil (rs : List Repodata) :
    rs.foldl ridxAdd [] = groupByUrl rs := by
  have h0 : groupByUrl ([] : List Repodata) = [] := rfl
  rw [← h0, foldl_ridxAdd, List.nil_append]

theorem groupByUrl_member_urls (rs : List Repodata) :
    ∀ p ∈ groupByUrl rs, ∀ x ∈ p.2, x.url = p.1 := by
  intro p hp x hx
  rcases List.mem_map.mp hp with ⟨u, hu, rfl⟩
  exact filter_url_mem hx

theorem flattenGroups_ok : ∀ idx : List (Str × List Repodata),
    (∀ p ∈ idx, ∀ x ∈ p.2, x.url = p.1) →
    flattenGroups idx = .ok (idx.filterMap groupResult) := by
  intro idx
  induction idx with
  | nil => intro _; rfl
  | cons p rest ih =>
    intro h
    have hrest : ∀ q ∈ rest, ∀ x ∈ q.2, x.url = q.1 :=
      fun q hq => h q (List.mem_cons_of_mem p hq)
    obtain ⟨u, g⟩ := p
    cases g with
    | nil =>
      simp only [flattenGroups, List.filterMap_cons, groupResult]
      exact ih hrest
    | cons r g2 =>
      cases g2 with
      | nil =>
        simp only [flattenGroups, List.filterMap_cons, groupResult]
        rw [ih hrest]
        rfl
      | cons x xs =>
        have hmembers : ∀ y ∈ x :: xs, y.url = r.url := by
          intro y hy
          have h1 : y.url = u :=
            h (u, r :: x :: xs) (List.mem_cons_self _ _) y (List.mem_cons_of_mem r hy)
          have h2 : r.url = u :=
            h (u, r :: x :: xs) (List.mem_cons_self _ _) r (List.mem_cons_self _ _)
          rw [h1, h2]
        simp only [flattenGroups, List.filterMap_cons, groupResult]
        rw [foldMerge_eq_mergeFoldT (x :: xs) r hmembers, ih hrest]

theorem getRepos_structure (files : List (List Str)) (rs : List Repodata)
    (hp : parseAllFiles files = .ok rs) :
    getRepos files = .ok ((groupByUrl rs).filterMap groupResult) := by
  unfold getRepos
  rw [hp]
  dsimp only
  rw [foldl_ridxAdd_nil]
  exact flattenGroups_ok (groupByUrl rs) (groupByUrl_member_urls rs)

theorem filterMap_groupResult_urls : ∀ (us : List Str) (rs : List Repodata),
    (∀ u ∈ us, ∃ x ∈ rs, x.url = u) →
    ((us.map (fun u => (u, rs.filter (fun x => x.url = u)))).filterMap groupResult).map
      (fun r => r.url) = us := by
  intro us rs
  induction us with
  | nil => intro _; rfl
  | cons u us ih =>
    intro h
    rcases h u (List.mem_cons_self u us) with ⟨x, hx, hxu⟩
    have hne : rs.filter (fun y => y.url = u) ≠ [] := by
      intro hc
      have hxin : x ∈ rs.filter (fun y => y.url = u) :=
        List.mem_filter.mpr ⟨hx, decide_eq_true hxu⟩
      rw [hc] at hxin
      cases hxin
    simp only [List.map_cons, List.filterMap_cons]
    cases hg : rs.filter (fun y => y.url = u) with
    | nil => exact absurd hg hne
    | cons g0 gtl =>
      simp only [groupResult, List.map_cons]
      have hg0 : g0 ∈ rs.filter (fun y => y.url = u) := by
        rw [hg]
        exact List.mem_cons_self g0 gtl
      congr 1
      · rw [mergeFoldT_url]
        exact filter_url_mem hg0
      · exact ih (fun v hv => h v (List.mem_cons_of_mem u hv))

/-- Claim C3: when collection succeeds, the output has exactly one record
per distinct URL, in first-seen order over the concatenated valid
records, and each output record's `attrs` is the left fold of dict
updates (last-write-wins) over its URL group in encounter order. -/
theorem claim_C3 (files : List (List Str)) (rs out : List Repodata)
    (hp : parseAllFiles files = .ok rs) (hg : getRepos files = .ok out) :
    out.map (fun r => r.url) = urlsOf rs ∧
    (out.map (fun r => r.url)).Nodup ∧
    (∀ o ∈ out, ∃ g0 gtl, rs.filter (fun x => x.url = o.url) = g0 :: gtl ∧
      o = mergeFoldT g0 gtl ∧
      o.attrs = List.foldl (fun a x => dictUpdate a x.attrs) g0.attrs gtl) := by
  have hs := getRepos_structure files rs hp
  rw [hs] at hg
  have hout : out = (groupByUrl rs).filterMap groupResult := (Except.ok.inj hg).symm
  subst hout
  have hurls : ((groupByUrl rs).filterMap groupResult).map (fun r => r.url) = urlsOf rs := by
    refine filterMap_groupResult_urls (urlsOf rs) rs ?_
    intro u hu
    rcases List.mem_map.mp ((mem_urlsOf rs u).mp hu) with ⟨x, hx, hxu⟩
    exact ⟨x, hx, hxu⟩
  refine ⟨hurls, ?_, ?_⟩
  · rw [hurls]
    exact nodup_firstSeenAux [] _
  · intro o ho
    rcases List.mem_filterMap.mp ho with ⟨p, hp2, hgr⟩
    rcases List.mem_map.mp hp2 with ⟨u, hu, rfl⟩
    cases hgg : rs.filter (fun x => x.url = u) with
    | nil =>
      rw [hgg] at hgr
      cases hgr
    | cons g0 gtl =>
      rw [hgg] at hgr
      simp only [groupResult] at hgr
      have ho2 : o = mergeFoldT g0 gtl := (Option.some.inj hgr).symm
      have hg0 : g0 ∈ rs.filter (fun x => x.url = u) := by
        rw [hgg]
        exact List.mem_cons_self g0 gtl
      have hg0u : g0.url = u := filter_url_mem hg0
      have hou : o.url = u := by rw [ho2, mergeFoldT_url, hg0u]
      have hmem2 : ∀ x ∈ gtl, x.url = g0.url := by
        intro x hx
        have hxin : x ∈ rs.filter (fun y => y.url = u) := by
          rw [hgg]
          exact List.mem_cons_of_mem g0 hx
        rw [filter_url_mem hxin, hg0u]
      refine ⟨g0, gtl, ?_, ho2, ?_⟩
      · rw [hou]
        exact hgg
      · rw [ho2]
        exact mergeFoldT_attrs gtl g0 hmem2

/-- Claim C3, witness: three same-URL declarations across three files
collapse to one record whose attrs are last-write-wins. -/
theorem claim_C3_witness :
    parseAllFiles exFiles = .ok exParsed ∧
    getRepos exFiles = .ok exMerged ∧
    (exMerged.map (fun r => r.url) = urlsOf exParsed ∧
     (exMerged.map (fun r => r.url)).Nodup ∧
     (∀ o ∈ exMerged, ∃ g0 gtl, exParsed.filter (fun x => x.url = o.url) = g0 :: gtl ∧
       o = mergeFoldT g0 gtl ∧
       o.attrs = List.foldl (fun a x => dictUpdate a x.attrs) g0.attrs gtl)) :=
  ⟨by decide, by decide, claim_C3 exFiles exParsed exMerged (by decide) (by decide)⟩

/-- Claim C9: a URL declared on exactly one line passes through collection
unchanged — the output contains that parsed record itself, and no other
output record carries its URL. -/
theorem claim_C9 (files : List (List Str)) (rs out : List Repodata) (r : Repodata)
    (hp : parseAllFiles files = .ok rs) (hg : getRepos files = .ok out)
    (hu : rs.filter (fun x => x.url = r.url) = [r]) :
    r ∈ out ∧ (∀ o ∈ out, o.url = r.url → o = r) := by
  have hs := getRepos_structure files rs hp
  rw [hs] at hg
  have hout : out = (groupByUrl rs).filterMap groupResult := (Except.ok.inj hg).symm
  subst hout
  have hrin : r ∈ rs.filter (fun x => x.url = r.url) := by
    rw [hu]
    exact List.mem_cons_self r []
  have hrmem : r ∈ rs := (List.mem_filter.mp hrin).1
  have hurl : r.url ∈ urlsOf rs :=
    (mem_urlsOf rs r.url).mpr (List.mem_map.mpr ⟨r, hrmem, rfl⟩)
  constructor
  · refine List.mem_filterMap.mpr ?_
    refine ⟨(r.url, rs.filter (fun x => x.url = r.url)), ?_, ?_⟩
    · exact List.mem_map.mpr ⟨r.url, hurl, rfl⟩
    · rw [hu]
      rfl
  · intro o ho hourl
    rcases List.mem_filterMap.mp ho with ⟨p, hp2, hgr⟩
    rcases List.mem_map.mp hp2 with ⟨u, hu2, rfl⟩
    cases hgg : rs.filter (fun x => x.url = u) with
    | nil =>
      rw [hgg] at hgr
      cases hgr
    | cons g0 gtl =>
      rw [hgg] at hgr
      simp only [groupResult] at hgr
      have ho2 : o = mergeFoldT g0 gtl := (Option.some.inj hgr).symm
      have hg0 : g0 ∈ rs.filter (fun x => x.url = u) := by
        rw [hgg]
        exact List.mem_cons_self g0 gtl
      have hg0u : g0.url = u := filter_url_mem hg0
      have hou : o.url = u := by rw [ho2, mergeFoldT_url, hg0u]
      have huequ : u = r.url := by rw [← hou, hourl]
      subst huequ
      rw [hu] at hgg
      cases hgg
      rw [ho2]
      rfl

/-- Claim C9, witness: each URL of `exFilesOnce` appears once and passes
through untouched. -/
theorem claim_C9_witness :
    parseAllFiles exFilesOnce = .ok exParsedOnce ∧
    getRepos exFilesOnce = .ok exMergedOnce ∧
    exParsedOnce.filter (fun x => x.url = exSingle.url) = [exSingle] ∧
    (exSingle ∈ exMergedOnce ∧
      (∀ o ∈ exMergedOnce, o.url = exSingle.url → o = exSingle)) :=
  ⟨by decide, by decide, by decide,
   claim_C9 exFilesOnce exParsedOnce exMergedOnce exSingle
     (by decide) (by decide) (by decide)⟩

/-! ## Claim C10: everything after a second `]` is silently discarded -/

theorem isPrefixOf_append_self : ∀ l s : Str, l.isPrefixOf (l ++ s) = true := by
  intro l s
  induction l with
  | nil => simp [List.isPrefixOf]
  | cons c l ih => simp [List.isPrefixOf, ih]

theorem pyDropWs_append_nonws (b : Str) (c : Char) (hc : c.isWhitespace = false) :
    ∀ a : Str, pyDropWs (a ++ c :: b) = pyDropWs a ++ c :: b := by
  intro a
  induction a with
  | nil => simp [pyDropWs, hc]
  | cons x a ih =>
    by_cases hx : x.isWhitespace
    · simp [pyDropWs, hx, ih]
    · simp [pyDropWs, hx]

theorem pyStripRightWs_append (P T : Str) (c : Char) (hc : c.isWhitespace = false) :
    pyStripRightWs (P ++ c :: T) = P ++ c :: pyStripRightWs T := by
  unfold pyStripRightWs
  rw [List.reverse_append, List.reverse_cons, List.append_assoc,
      List.singleton_append, pyDropWs_append_nonws P.reverse c hc T.reverse,
      List.reverse_append, List.reverse_cons, List.reverse_reverse]
  simp

theorem pySplitChar_append (sep : Char) : ∀ (A : Str), ¬(sep ∈ A) → ∀ R : Str,
    pySplitChar sep (A ++ sep :: R) = A :: pySplitChar sep R := by
  intro A
  induction A with
  | nil => intro _ R; simp [pySplitChar]
  | cons a A ih =>
    intro hA R
    have ha : ¬(a = sep) := fun hc => hA (hc ▸ List.mem_cons_self a A)
    simp only [List.cons_append, pySplitChar, List.append_eq]
    rw [ih (fun hm => hA (List.mem_cons_of_mem a hm)) R]
    simp [ha]

theorem parseTail_ok_irrel (l1 l2 : Str) (attrs : List (Str × Str)) (rd2 : Str)
    (r : Repodata) :
    parseTail l1 attrs rd2 = .ok r ↔ parseTail l2 attrs rd2 = .ok r := by
  simp only [parseTail]
  by_cases hflat : pyStrip (rd2.drop ((pySplitChar ' ' rd2).headD []).length) = ['/']
  · rw [if_pos hflat, if_pos hflat]
  · rw [if_neg hflat, if_neg hflat]
    by_cases hlen : (pySplitChar ' '
        (pyStrip (rd2.drop ((pySplitChar ' ' rd2).headD []).length))).length < 2
    · rw [if_pos hlen, if_pos hlen]
      simp
    · rw [if_neg hlen, if_neg hlen]

theorem parseRepo_bracket (A B C : Str) (hA : ¬(']' ∈ A)) (hB : ¬(']' ∈ B)) :
    parseRepo (debMarker ++ '[' :: (A ++ ']' :: (B ++ ']' :: C))) =
      (match parseAttrs [] (pySplitChar ' ' (collapseWs (pyStrip A))) with
       | .error e => .error e
       | .ok attrs =>
         parseTail (debMarker ++ '[' :: (A ++ ']' :: (B ++ ']' :: C))) attrs
           (pyStrip B)) := by
  have hstrip : pyStrip ((debMarker ++ '[' :: (A ++ ']' :: (B ++ ']' :: C))).drop 3) =
      '[' :: (A ++ ']' :: (B ++ ']' :: pyStripRightWs C)) := by
    have hdrop : (debMarker ++ '[' :: (A ++ ']' :: (B ++ ']' :: C))).drop 3 =
        ' ' :: '[' :: (A ++ ']' :: (B ++ ']' :: C)) := by
      simp [debMarker]
    rw [hdrop]
    unfold pyStrip
    have h1 : pyDropWs (' ' :: '[' :: (A ++ ']' :: (B ++ ']' :: C))) =
        '[' :: (A ++ ']' :: (B ++ ']' :: C)) := by
      simp [pyDropWs]
    rw [h1]
    have hshape : '[' :: (A ++ ']' :: (B ++ ']' :: C)) =
        ('[' :: (A ++ ']' :: B)) ++ ']' :: C := by
      simp
    rw [hshape, pyStripRightWs_append _ _ _ (by decide)]
    simp
  simp only [parseRepo]
  rw [if_pos (isPrefixOf_append_self debMarker _), hstrip]
  have hbr : (['['].isPrefixOf ('[' :: (A ++ ']' :: (B ++ ']' :: pyStripRightWs C))) &&
      ('[' :: (A ++ ']' :: (B ++ ']' :: pyStripRightWs C))).contains ']') = true := by
    rw [Bool.and_eq_true]
    constructor
    · simp [List.isPrefixOf]
    · exact List.elem_iff.mpr (by simp)
  rw [if_pos hbr]
  have hcontent : (pySplitChar ']'
      (('[' :: (A ++ ']' :: (B ++ ']' :: pyStripRightWs C))).drop 1)).headD [] = A := by
    have hd : ('[' :: (A ++ ']' :: (B ++ ']' :: pyStripRightWs C))).drop 1 =
        A ++ ']' :: (B ++ ']' :: pyStripRightWs C) := rfl
    rw [hd, pySplitChar_append ']' A hA]
    rfl
  rw [hcontent]
  have hnotA : ¬(']' ∈ ('[' :: A)) := by
    intro hm
    rcases List.mem_cons.mp hm with hm | hm
    · exact absurd hm (by decide)
    · exact hA hm
  have hrd2 : ((pySplitChar ']'
      ('[' :: (A ++ ']' :: (B ++ ']' :: pyStripRightWs C)))).drop 1).headD [] = B := by
    have hshape2 : '[' :: (A ++ ']' :: (B ++ ']' :: pyStripRightWs C)) =
        ('[' :: A) ++ ']' :: (B ++ ']' :: pyStripRightWs C) := by
      simp
    rw [hshape2, pySplitChar_append ']' ('[' :: A) hnotA,
        pySplitChar_append ']' B hB]
    rfl
  rw [hrd2]

/-- Claim C10: for a recognized bracket line, a second `]` makes the
parser silently discard everything after it: the parse result (whenever a
record is produced) is the same as for the line truncated at that second
`]`, for any junk `C`. -/
theorem claim_C10 (A B C : Str) (hA : ¬(']' ∈ A)) (hB : ¬(']' ∈ B)) (r : Repodata) :
    parseRepo (debMarker ++ '[' :: (A ++ ']' :: (B ++ ']' :: C))) = .ok r ↔
    parseRepo (debMarker ++ '[' :: (A ++ ']' :: (B ++ [']']))) = .ok r := by
  rw [parseRepo_bracket A B C hA hB, parseRepo_bracket A B [] hA hB]
  cases hpa : parseAttrs [] (pySplitChar ' ' (collapseWs (pyStrip A))) with
  | error e => simp
  | ok attrs =>
    dsimp only
    exact parseTail_ok_irrel _ _ attrs (pyStrip B) r

/-- Claim C10, witness: `deb [a=1] http://u n c ] junk` parses to the
same record as `deb [a=1] http://u n c ]`. -/
theorem claim_C10_witness :
    ¬(']' ∈ (("a=1").toList : Str)) ∧
    ¬(']' ∈ ((" http://u n c").toList : Str)) ∧
    parseRepo (debMarker ++ '[' :: ((("a=1").toList) ++ ']' ::
      (((" http://u n c").toList) ++ ']' :: ((" junk").toList)))) = .ok exBracketRec ∧
    parseRepo (debMarker ++ '[' :: ((("a=1").toList) ++ ']' ::
      (((" http://u n c").toList) ++ [']']))) = .ok exBracketRec := by
  refine ⟨by decide, by decide, by decide, ?_⟩
  exact (claim_C10 (("a=1").toList) ((" http://u n c").toList) ((" junk").toList)
    (by decide) (by decide) exBracketRec).mp (by decide)
